import Mathlib

/-!
Shallow embedding of the question-session engine of the vocab-trainer
application (source: src/src/App.tsx; src/unnamed/part_000 is a variant of
the same component with identical core logic).

Modelling conventions:
* JavaScript numbers holding small integers (counters, limits, ranges) are
  embedded as Int.
* `Math.random()`-driven choices are embedded as explicitly supplied data:
  the uniform index `Math.floor(Math.random() * length)` becomes a natural
  number `k` reduced modulo the length, and the comparator-based shuffles
  `arr.sort(() => 0.5 - Math.random())` become an arbitrary permutation of
  the array, produced by `shuffleWith` from a list of seed indices (for any
  seeds the output is a permutation of the input, which is exactly what the
  JS sort guarantees for an inconsistent comparator).
* React `useState` state is collected in the record `AppState`; each event
  handler becomes a pure function `AppState → AppState`.
* `Array.prototype.sort` (stable since ES2019) with the comparator
  `(a, b) => b.wrongCount - a.wrongCount` is embedded as a stable insertion
  sort, descending by `wrongCount`, ties keeping the original order.
-/

namespace VocabTrainer

inductive Mode where
  | enToJa
  | jaToEn
deriving DecidableEq

inductive SessionType where
  | normal
  | training
deriving DecidableEq

inductive Feedback where
  | correct
  | wrong
deriving DecidableEq

/-- The Word record of App.tsx (lines 4-10). -/
structure Word where
  id : String
  english : String
  japanese : String
  wrongCount : Int
  correctTotal : Int
deriving DecidableEq

/-- The useState fields of the App component that the session engine reads
and writes (App.tsx lines 13-28; presentation-only fields are omitted). -/
structure AppState where
  allWords : List Word
  currentWord : Option Word
  options : List String
  feedback : Option Feedback
  sessionType : SessionType
  mode : Mode
  rangeStart : Int
  rangeEnd : Int
  sessionLimit : Int
  solvedCount : Int
  correctSession : Int
  isFinished : Bool
  usedWordIds : List String
deriving DecidableEq

/-- Decimal digit run parser, helper for the embedding of JS parseInt. -/
def parseDigits (cs : List Char) : Option Nat :=
  let ds := cs.takeWhile Char.isDigit
  if ds.isEmpty then none
  else some (ds.foldl (fun acc c => acc * 10 + (c.toNat - 48)) 0)

/-- Embedding of JS parseInt(s) on base-10 input, as used on word ids in
filteredWords (App.tsx line 75): leading spaces skipped, optional sign,
longest leading digit run; none models NaN (any comparison with NaN is
false, so a none id never passes the range filter). -/
def parseIntOpt (s : String) : Option Int :=
  match s.data.dropWhile (fun c => c = ' ') with
  | '-' :: rest => (parseDigits rest).map (fun n => -(n : Int))
  | '+' :: rest => (parseDigits rest).map (fun n => (n : Int))
  | cs => (parseDigits cs).map (fun n => (n : Int))

/-- filteredWords (App.tsx lines 73-78): words whose parsed id lies in
[rangeStart, rangeEnd]; unparsable ids are excluded. -/
def filteredWords (s : AppState) : List Word :=
  s.allWords.filter (fun w =>
    match parseIntOpt w.id with
    | some idNum => decide (s.rangeStart ≤ idNum) && decide (idNum ≤ s.rangeEnd)
    | none => false)

/-- The answer-direction term of a word: `mode === 'enToJa' ? w.japanese :
w.english` (App.tsx lines 106, 117). -/
def answerTerm (mode : Mode) (w : Word) : String :=
  match mode with
  | .enToJa => w.japanese
  | .jaToEn => w.english

/-- Stable insertion of a word into a list sorted descending by wrongCount;
the inserted word (earlier in the original array) goes before equal keys. -/
def insertByWrongCount (w : Word) : List Word → List Word
  | [] => [w]
  | v :: l =>
    if v.wrongCount ≤ w.wrongCount then w :: v :: l else v :: insertByWrongCount w l

/-- Embedding of `[...availableWords].sort((a, b) => b.wrongCount - a.wrongCount)`
(App.tsx line 85): a stable sort, descending by wrongCount. -/
def sortByWrongCountDesc : List Word → List Word
  | [] => []
  | w :: ws => insertByWrongCount w (sortByWrongCountDesc ws)

/-- The availableWords local of pickNextWord (App.tsx line 81): the
range-filtered pool minus the excluded ids. -/
def availableWordsOf (s : AppState) (excludeIds : List String) : List Word :=
  (filteredWords s).filter (fun w => !excludeIds.contains w.id)

/-- pickNextWord (App.tsx lines 80-91).  The random index of the normal
branch is supplied as k (reduced mod the length, as Math.floor(Math.random()
* length) always is in range). -/
def pickNextWord (s : AppState) (excludeIds : List String) (type : SessionType)
    (k : Nat) : Option Word :=
  if (availableWordsOf s excludeIds).isEmpty then none
  else
    match type with
    | .training => (sortByWrongCountDesc (availableWordsOf s excludeIds)).head?
    | .normal =>
      (availableWordsOf s excludeIds).get?
        (k % (availableWordsOf s excludeIds).length)

/-- An arbitrary permutation of a list, driven by a list of seed indices:
at each step the element at position (seed mod remaining length) is moved to
the front.  This embeds the comparator shuffle
`arr.sort(() => 0.5 - Math.random())` of App.tsx lines 110-111, whose only
guarantee is that the result is some permutation of the input. -/
def shuffleWith : List Nat → List String → List String
  | [], l => l
  | _ :: _, [] => []
  | k :: ks, a :: t =>
    (a :: t).get ⟨k % (a :: t).length, Nat.mod_lt _ (Nat.succ_pos _)⟩ ::
      shuffleWith ks ((a :: t).eraseIdx (k % (a :: t).length))

/-- The wrongAnswers candidate list of setupQuestion (App.tsx lines 107-109):
the answer-direction term of every word of the whole pool whose term differs
from the correct answer. -/
def wrongAnswersFor (s : AppState) (word : Word) : List String :=
  (s.allWords.filter (fun w => answerTerm s.mode w != answerTerm s.mode word)).map
    (answerTerm s.mode)

/-- setupQuestion (App.tsx lines 103-113).  ks1 drives the shuffle of the
wrong answers, ks2 the shuffle of the final option list. -/
def setupQuestion (ks1 ks2 : List Nat) (word : Word) (s : AppState) : AppState :=
  let correctAnswer := answerTerm s.mode word
  let shuffledWrong := (shuffleWith ks1 (wrongAnswersFor s word)).take 3
  { s with
    currentWord := some word
    usedWordIds := s.usedWordIds ++ [word.id]
    options := shuffleWith ks2 (shuffledWrong ++ [correctAnswer])
    feedback := none }

/-- The pool update inside handleAnswer (App.tsx lines 122-131): the spec
calls this applyAnswerResult. -/
def applyAnswerResult (pool : List Word) (wordId : String) (isCorrect : Bool) :
    List Word :=
  pool.map (fun w =>
    if w.id = wordId then
      { w with
        wrongCount := if isCorrect then max 0 (w.wrongCount - 1) else w.wrongCount + 1
        correctTotal := if isCorrect then 1 else 0 }
    else w)

/-- handleAnswer (App.tsx lines 115-134, without the localStorage write,
which is external persistence). -/
def handleAnswer (answer : String) (s : AppState) : AppState :=
  match s.currentWord with
  | none => s
  | some currentWord =>
    if s.feedback.isSome || s.isFinished then s
    else
      let correctAnswer := answerTerm s.mode currentWord
      let isCorrect : Bool := answer == correctAnswer
      { s with
        feedback := some (if isCorrect then .correct else .wrong)
        correctSession := if isCorrect then s.correctSession + 1 else s.correctSession
        allWords := applyAnswerResult s.allWords currentWord.id isCorrect }

/-- proceedNext (App.tsx lines 136-149).  pickNextWord is evaluated on the
pre-update state, exactly as the JS closure reads the current render's
usedWordIds and sessionType (solvedCount does not influence it). -/
def proceedNext (k : Nat) (ks1 ks2 : List Nat) (s : AppState) : AppState :=
  if s.feedback.isNone || s.isFinished || s.currentWord.isNone then s
  else
    let nextCount := s.solvedCount + 1
    let s1 := { s with solvedCount := nextCount }
    if s.sessionLimit ≤ nextCount then
      { s1 with isFinished := true, currentWord := none, feedback := none }
    else
      match pickNextWord s s.usedWordIds s.sessionType k with
      | some nextWord => setupQuestion ks1 ks2 nextWord s1
      | none => { s1 with isFinished := true, currentWord := none, feedback := none }

/-- startSession (App.tsx lines 93-101).  The fields pickNextWord consults
(allWords, range) are identical in s and s1, so passing s1 is faithful. -/
def startSession (type : SessionType) (k : Nat) (ks1 ks2 : List Nat)
    (s : AppState) : AppState :=
  let s1 := { s with
    sessionType := type
    solvedCount := 0
    correctSession := 0
    isFinished := false
    usedWordIds := ([] : List String) }
  match pickNextWord s1 [] type k with
  | some firstWord => setupQuestion ks1 ks2 firstWord s1
  | none => s1

/-- The accuracy figure rendered in the Finished view (App.tsx line 220):
Math.round((correctSession / (solvedCount || 1)) * 100), with Math.round x
embedded as the floor of x + 1/2 over the exact rationals. -/
def resultAccuracy (s : AppState) : Int :=
  ⌊((s.correctSession : ℚ) /
      (if s.solvedCount = 0 then 1 else (s.solvedCount : ℚ))) * 100 + 1 / 2⌋

/-- One user-visible engine event. -/
inductive Event where
  | start (type : SessionType) (k : Nat) (ks1 ks2 : List Nat)
  | answer (a : String)
  | next (k : Nat) (ks1 ks2 : List Nat)

/-- Interpretation of one event as the corresponding handler. -/
def stepEv : Event → AppState → AppState
  | .start type k ks1 ks2, s => startSession type k ks1 ks2 s
  | .answer a, s => handleAnswer a s
  | .next k ks1 ks2, s => proceedNext k ks1 ks2 s

/-- Run a finite sequence of engine events from a state. -/
def run (evs : List Event) (s : AppState) : AppState :=
  evs.foldl (fun st e => stepEv e st) s

/-! Concrete sample data used by the closed witness theorems. -/

def wordA : Word :=
  { id := "1", english := "apple", japanese := "ja-apple", wrongCount := 3, correctTotal := 0 }

def wordB : Word :=
  { id := "2", english := "book", japanese := "ja-book", wrongCount := 0, correctTotal := 1 }

def wordC : Word :=
  { id := "3", english := "cat", japanese := "ja-cat", wrongCount := 0, correctTotal := 0 }

def wordD : Word :=
  { id := "4", english := "dog", japanese := "ja-dog", wrongCount := 0, correctTotal := 0 }

/-- A lobby state over a four-word pool. -/
def baseState : AppState :=
  { allWords := [wordA, wordB, wordC, wordD]
    currentWord := none
    options := []
    feedback := none
    sessionType := .normal
    mode := .enToJa
    rangeStart := 1
    rangeEnd := 100
    sessionLimit := 10
    solvedCount := 0
    correctSession := 0
    isFinished := false
    usedWordIds := [] }

/-- An in-progress state with an unanswered question on wordA. -/
def askedState : AppState :=
  { baseState with currentWord := some wordA, usedWordIds := ["1"] }

/-- An in-progress state with an answered question on wordA and limit 1. -/
def answeredState : AppState :=
  { baseState with
    currentWord := some wordA
    feedback := some .correct
    usedWordIds := ["1"]
    sessionLimit := 1 }

/-- A finished state with 7 of 10 questions answered correctly. -/
def finishedState : AppState :=
  { baseState with isFinished := true, solvedCount := 10, correctSession := 7 }

/-! Basic lemmas about handleAnswer. -/

/-- On a valid submit, handleAnswer sets the feedback, bumps the session
correct counter on a correct answer, and rewrites the pool through
applyAnswerResult. -/
theorem handleAnswer_eq (s : AppState) (cw : Word) (answer : String)
    (hcw : s.currentWord = some cw) (hfb : s.feedback = none)
    (hfin : s.isFinished = false) :
    handleAnswer answer s =
      { s with
        feedback := some (if answer == answerTerm s.mode cw then .correct else .wrong)
        correctSession :=
          if answer == answerTerm s.mode cw then s.correctSession + 1 else s.correctSession
        allWords :=
          applyAnswerResult s.allWords cw.id (answer == answerTerm s.mode cw) } := by
  unfold handleAnswer
  rw [hcw]
  simp [hfb, hfin]

/-- Pointwise view of applyAnswerResult: the entry at index i is the old
entry, updated exactly when its id is the answered id. -/
theorem applyAnswerResult_getElem (pool : List Word) (wordId : String) (b : Bool)
    (i : Nat) (w : Word) (hw : pool[i]? = some w) :
    (applyAnswerResult pool wordId b)[i]? =
      some (if w.id = wordId then
        { w with
          wrongCount := if b then max 0 (w.wrongCount - 1) else w.wrongCount + 1
          correctTotal := if b then 1 else 0 }
      else w) := by
  simp [applyAnswerResult, hw]

/-- C1: on a valid submit, the counters of every pool entry carrying the
answered word's id are updated exactly as the spec states: on a correct
answer (the submitted string equals the correct-direction term) the new
wrongCount is max 0 (wrongCount - 1) and correctTotal is overwritten with 1;
on an incorrect answer the new wrongCount is wrongCount + 1 and correctTotal
is overwritten with 0. -/
theorem handleAnswer_counter_update (s : AppState) (cw : Word) (answer : String)
    (hcw : s.currentWord = some cw) (hfb : s.feedback = none)
    (hfin : s.isFinished = false)
    (i : Nat) (w : Word) (hw : s.allWords[i]? = some w) (hid : w.id = cw.id) :
    ∃ w', (handleAnswer answer s).allWords[i]? = some w' ∧
      (answer = answerTerm s.mode cw →
        w'.wrongCount = max 0 (w.wrongCount - 1) ∧ w'.correctTotal = 1) ∧
      (answer ≠ answerTerm s.mode cw →
        w'.wrongCount = w.wrongCount + 1 ∧ w'.correctTotal = 0) := by
  have hb := applyAnswerResult_getElem s.allWords cw.id
    (answer == answerTerm s.mode cw) i w hw
  rw [handleAnswer_eq s cw answer hcw hfb hfin]
  refine ⟨_, hb, ?_, ?_⟩
  · intro h
    simp [hid, h]
  · intro h
    simp [hid, h]

/-- C1 witness: submitting the correct term for wordA in a concrete valid
state rewrites its counters to wrongCount 2 and correctTotal 1. -/
theorem handleAnswer_counter_update_witness :
    askedState.currentWord = some wordA ∧ askedState.feedback = none ∧
    askedState.isFinished = false ∧ askedState.allWords[0]? = some wordA ∧
    ∃ w', (handleAnswer "ja-apple" askedState).allWords[0]? = some w' ∧
      w'.wrongCount = max 0 (wordA.wrongCount - 1) ∧ w'.correctTotal = 1 := by
  obtain ⟨w', hget, hcorrect, _⟩ :=
    handleAnswer_counter_update askedState wordA "ja-apple" rfl rfl rfl 0 wordA
      (by decide) rfl
  exact ⟨rfl, rfl, rfl, by decide, w', hget, (hcorrect rfl).1, (hcorrect rfl).2⟩

/-- C9: applyAnswerResult preserves the length and order of the pool, leaves
every entry whose id differs from the answered id entirely unchanged, and
never touches the id, prompt or target of any entry. -/
theorem applyAnswerResult_frame (pool : List Word) (wordId : String)
    (isCorrect : Bool) :
    (applyAnswerResult pool wordId isCorrect).length = pool.length ∧
    (∀ (i : Nat) (w : Word), pool[i]? = some w → w.id ≠ wordId →
      (applyAnswerResult pool wordId isCorrect)[i]? = some w) ∧
    (∀ (i : Nat) (w : Word), pool[i]? = some w →
      ∃ w', (applyAnswerResult pool wordId isCorrect)[i]? = some w' ∧
        w'.id = w.id ∧ w'.english = w.english ∧ w'.japanese = w.japanese) := by
  refine ⟨by simp [applyAnswerResult], ?_, ?_⟩
  · intro i w hw hne
    rw [applyAnswerResult_getElem pool wordId isCorrect i w hw, if_neg hne]
  · intro i w hw
    rw [applyAnswerResult_getElem pool wordId isCorrect i w hw]
    by_cases h : w.id = wordId
    · exact ⟨_, rfl, by simp [h]⟩
    · exact ⟨_, rfl, by simp [h]⟩

/-- C9 witness: updating wordA in the concrete pool leaves wordB untouched
and keeps its id and both terms. -/
theorem applyAnswerResult_frame_witness :
    [wordA, wordB][1]? = some wordB ∧ wordB.id ≠ "1" ∧
    (applyAnswerResult [wordA, wordB] "1" true)[1]? = some wordB := by
  refine ⟨by decide, by decide, ?_⟩
  exact (applyAnswerResult_frame [wordA, wordB] "1" true).2.1 1 wordB (by decide)
    (by decide)

/-- handleAnswer is a no-op whenever its guard fires. -/
theorem handleAnswer_noop (answer : String) (s : AppState)
    (h : s.feedback ≠ none ∨ s.currentWord = none ∨ s.isFinished = true) :
    handleAnswer answer s = s := by
  unfold handleAnswer
  cases hcw : s.currentWord with
  | none => rfl
  | some cw =>
    rcases h with h | h | h
    · simp [Option.isSome_iff_ne_none, h]
    · rw [h] at hcw
      exact absurd hcw (by simp)
    · simp [h]

/-- proceedNext is a no-op whenever its guard fires. -/
theorem proceedNext_noop (k : Nat) (ks1 ks2 : List Nat) (s : AppState)
    (h : s.feedback = none ∨ s.isFinished = true ∨ s.currentWord = none) :
    proceedNext k ks1 ks2 s = s := by
  unfold proceedNext
  rcases h with h | h | h
  · simp [h]
  · simp [h]
  · simp [h]

/-- C7: every engine operation invoked in an invalid state is a no-op:
handleAnswer when the question is already answered, when there is no current
word or when the session is finished, and proceedNext when the question is
unanswered, the session is finished or there is no current word, all return
the state unchanged (and, being total functions, never throw). -/
theorem invalid_state_ops_are_noops (s : AppState) :
    (∀ answer, s.feedback ≠ none ∨ s.currentWord = none ∨ s.isFinished = true →
      handleAnswer answer s = s) ∧
    (∀ k ks1 ks2, s.feedback = none ∨ s.isFinished = true ∨ s.currentWord = none →
      proceedNext k ks1 ks2 s = s) :=
  ⟨fun answer h => handleAnswer_noop answer s h,
   fun k ks1 ks2 h => proceedNext_noop k ks1 ks2 s h⟩

/-- C7 witness: at a concrete answered state, a second submit is a no-op,
and at a concrete lobby state (no current word, no feedback), proceedNext is
a no-op. -/
theorem invalid_state_ops_are_noops_witness :
    (answeredState.feedback ≠ none ∨ answeredState.currentWord = none ∨
      answeredState.isFinished = true) ∧
    handleAnswer "ja-apple" answeredState = answeredState ∧
    (baseState.feedback = none ∨ baseState.isFinished = true ∨
      baseState.currentWord = none) ∧
    proceedNext 0 [] [] baseState = baseState := by
  refine ⟨Or.inl (by decide), ?_, Or.inl rfl, ?_⟩
  · exact (invalid_state_ops_are_noops answeredState).1 "ja-apple" (Or.inl (by decide))
  · exact (invalid_state_ops_are_noops baseState).2 0 [] [] (Or.inl rfl)

/-! Lemmas about the training-mode selection. -/

/-- Modelled from the spec: the first word of a list attaining the maximal
wrongCount.  Used as the reference value the sorted head is compared to. -/
def firstMaxByWrongCount : List Word → Option Word
  | [] => none
  | w :: ws =>
    match firstMaxByWrongCount ws with
    | none => some w
    | some v => if w.wrongCount < v.wrongCount then some v else some w

/-- The head of a stable insert is the more-wrong of the inserted word and
the old head, the inserted word winning ties. -/
theorem insertByWrongCount_head (w : Word) (l : List Word) :
    (insertByWrongCount w l).head? =
      some (match l.head? with
            | none => w
            | some v => if v.wrongCount ≤ w.wrongCount then w else v) := by
  cases l with
  | nil => rfl
  | cons v t =>
    by_cases h : v.wrongCount ≤ w.wrongCount
    · simp [insertByWrongCount, h]
    · simp [insertByWrongCount, h]

/-- firstMaxByWrongCount is none exactly on the empty list. -/
theorem firstMaxByWrongCount_eq_none_iff (l : List Word) :
    firstMaxByWrongCount l = none ↔ l = [] := by
  cases l with
  | nil => simp [firstMaxByWrongCount]
  | cons w ws =>
    simp only [firstMaxByWrongCount]
    cases firstMaxByWrongCount ws with
    | none => simp
    | some v =>
      by_cases h : w.wrongCount < v.wrongCount <;> simp [h]

/-- The head of the descending stable sort is the first maximal word. -/
theorem sortByWrongCountDesc_head (l : List Word) :
    (sortByWrongCountDesc l).head? = firstMaxByWrongCount l := by
  induction l with
  | nil => rfl
  | cons w ws ih =>
    cases hm : firstMaxByWrongCount ws with
    | none =>
      have hws : ws = [] := (firstMaxByWrongCount_eq_none_iff ws).mp hm
      subst hws
      rfl
    | some v =>
      have hh : (sortByWrongCountDesc ws).head? = some v := ih.trans hm
      rw [sortByWrongCountDesc, insertByWrongCount_head, hh]
      simp only [firstMaxByWrongCount, hm]
      by_cases hle : v.wrongCount ≤ w.wrongCount
      · rw [if_pos hle, if_neg (by omega)]
      · rw [if_neg hle, if_pos (by omega)]

/-- The first maximal word belongs to the list and dominates every entry. -/
theorem firstMaxByWrongCount_mem_max (l : List Word) (w : Word)
    (h : firstMaxByWrongCount l = some w) :
    w ∈ l ∧ ∀ v ∈ l, v.wrongCount ≤ w.wrongCount := by
  induction l generalizing w with
  | nil => simp [firstMaxByWrongCount] at h
  | cons a t ih =>
    cases hm : firstMaxByWrongCount t with
    | none =>
      have ht : t = [] := (firstMaxByWrongCount_eq_none_iff t).mp hm
      subst ht
      obtain rfl : a = w := by simpa [firstMaxByWrongCount] using h
      exact ⟨by simp, by simp⟩
    | some v =>
      simp only [firstMaxByWrongCount, hm] at h
      obtain ⟨hv, hvmax⟩ := ih v hm
      by_cases hlt : a.wrongCount < v.wrongCount
      · rw [if_pos hlt] at h
        obtain rfl : v = w := by simpa using h
        refine ⟨List.mem_cons_of_mem a hv, ?_⟩
        intro u hu
        rcases List.mem_cons.mp hu with rfl | hu
        · omega
        · exact hvmax u hu
      · rw [if_neg hlt] at h
        obtain rfl : a = w := by simpa using h
        refine ⟨List.mem_cons_self _ _, ?_⟩
        intro u hu
        rcases List.mem_cons.mp hu with rfl | hu
        · exact le_refl _
        · have := hvmax u hu
          omega

/-- The first maximal word sits at an index before which every entry has a
strictly smaller wrongCount. -/
theorem firstMaxByWrongCount_first (l : List Word) (w : Word)
    (h : firstMaxByWrongCount l = some w) :
    ∃ i, ∃ hi : i < l.length, l.get ⟨i, hi⟩ = w ∧
      ∀ v ∈ l.take i, v.wrongCount < w.wrongCount := by
  induction l generalizing w with
  | nil => simp [firstMaxByWrongCount] at h
  | cons a t ih =>
    cases hm : firstMaxByWrongCount t with
    | none =>
      simp only [firstMaxByWrongCount, hm] at h
      obtain rfl : a = w := by simpa using h
      exact ⟨0, by simp, rfl, by simp⟩
    | some v =>
      simp only [firstMaxByWrongCount, hm] at h
      by_cases hlt : a.wrongCount < v.wrongCount
      · rw [if_pos hlt] at h
        obtain rfl : v = w := by simpa using h
        obtain ⟨i, hi, hg, hstrict⟩ := ih _ hm
        refine ⟨i + 1, by simpa using Nat.succ_lt_succ hi, by simpa using hg, ?_⟩
        intro u hu
        rcases List.mem_cons.mp (by simpa using hu) with rfl | hu
        · exact hlt
        · exact hstrict u hu
      · rw [if_neg hlt] at h
        obtain rfl : a = w := by simpa using h
        exact ⟨0, by simp, rfl, by simp⟩

/-- C2: on a non-empty available set, pickNextWord in training mode ignores
the random seed (so repeated calls on an identical pool and available set
agree), and returns the word at an index i of the available list such that
every available word has wrongCount at most that word's, and every word
before index i has a strictly smaller wrongCount (first in pool iteration
order among the maximal ones). -/
theorem pickNextWord_training_first_max (s : AppState) (excludeIds : List String)
    (k k2 : Nat) (h : availableWordsOf s excludeIds ≠ []) :
    ∃ w i, ∃ hi : i < (availableWordsOf s excludeIds).length,
      pickNextWord s excludeIds .training k = some w ∧
      pickNextWord s excludeIds .training k2 = pickNextWord s excludeIds .training k ∧
      (availableWordsOf s excludeIds).get ⟨i, hi⟩ = w ∧
      (∀ v ∈ availableWordsOf s excludeIds, v.wrongCount ≤ w.wrongCount) ∧
      (∀ v ∈ (availableWordsOf s excludeIds).take i,
        v.wrongCount < w.wrongCount) := by
  have hne : (availableWordsOf s excludeIds).isEmpty = false := by
    cases hav : availableWordsOf s excludeIds with
    | nil => exact absurd hav h
    | cons a t => rfl
  cases hfm : firstMaxByWrongCount (availableWordsOf s excludeIds) with
  | none => exact absurd ((firstMaxByWrongCount_eq_none_iff _).mp hfm) h
  | some w =>
    have hpick : pickNextWord s excludeIds .training k = some w := by
      rw [pickNextWord, if_neg (by simp [hne])]
      show (sortByWrongCountDesc (availableWordsOf s excludeIds)).head? = some w
      rw [sortByWrongCountDesc_head, hfm]
    have hpick2 : pickNextWord s excludeIds .training k2 = some w := by
      rw [pickNextWord, if_neg (by simp [hne])]
      show (sortByWrongCountDesc (availableWordsOf s excludeIds)).head? = some w
      rw [sortByWrongCountDesc_head, hfm]
    obtain ⟨i, hi, hg, hstrict⟩ := firstMaxByWrongCount_first _ w hfm
    obtain ⟨_, hmax⟩ := firstMaxByWrongCount_mem_max _ w hfm
    exact ⟨w, i, hi, hpick, hpick2.trans hpick.symm, hg, hmax, hstrict⟩

/-- C2 witness: in the concrete four-word pool with nothing excluded, the
training pick is wordA (the unique maximal-wrongCount word, at index 0),
for any seed. -/
theorem pickNextWord_training_first_max_witness :
    availableWordsOf baseState [] ≠ [] ∧
    ∃ w i, ∃ hi : i < (availableWordsOf baseState []).length,
      pickNextWord baseState [] .training 5 = some w ∧
      pickNextWord baseState [] .training 11 = pickNextWord baseState [] .training 5 ∧
      (availableWordsOf baseState []).get ⟨i, hi⟩ = w ∧
      (∀ v ∈ availableWordsOf baseState [], v.wrongCount ≤ w.wrongCount) ∧
      (∀ v ∈ (availableWordsOf baseState []).take i, v.wrongCount < w.wrongCount) :=
  ⟨by decide, pickNextWord_training_first_max baseState [] 5 11 (by decide)⟩

/-! Lemmas about the option shuffle. -/

/-- A list is a permutation of its i-th element consed onto the rest. -/
theorem perm_get_cons_eraseIdx (l : List String) (i : Nat) (hi : i < l.length) :
    l.Perm (l.get ⟨i, hi⟩ :: l.eraseIdx i) := by
  induction l generalizing i with
  | nil => simp at hi
  | cons a t ih =>
    cases i with
    | zero => exact List.Perm.refl _
    | succ n =>
      have hn : n < t.length := by simpa using hi
      exact ((ih n hn).cons a).trans (List.Perm.swap _ _ _)

/-- shuffleWith returns a permutation of its input, for any seeds. -/
theorem shuffleWith_perm (ks : List Nat) (l : List String) :
    (shuffleWith ks l).Perm l := by
  induction ks generalizing l with
  | nil => simp [shuffleWith]
  | cons k kt ih =>
    cases l with
    | nil => simp [shuffleWith]
    | cons a t =>
      rw [shuffleWith]
      refine List.Perm.trans ?_
        (perm_get_cons_eraseIdx (a :: t) (k % (a :: t).length)
          (Nat.mod_lt _ (Nat.succ_pos _))).symm
      exact (ih _).cons _

/-- Every candidate distractor differs textually from the correct answer. -/
theorem wrongAnswersFor_ne (s : AppState) (word : Word) (o : String)
    (ho : o ∈ wrongAnswersFor s word) : o ≠ answerTerm s.mode word := by
  rw [wrongAnswersFor] at ho
  obtain ⟨w, hw, rfl⟩ := List.mem_map.mp ho
  have hne := (List.mem_filter.mp hw).2
  simpa [bne_iff_ne] using hne

/-- C10: for every word, mode and pool, the built option list contains the
correct answer, and has exactly min 3 (number of candidate distractor
entries) + 1 elements: with fewer than 3 candidates the list is shortened,
never padded. -/
theorem setupQuestion_option_count (s : AppState) (word : Word) (ks1 ks2 : List Nat) :
    answerTerm s.mode word ∈ (setupQuestion ks1 ks2 word s).options ∧
    (setupQuestion ks1 ks2 word s).options.length
      = min 3 (wrongAnswersFor s word).length + 1 := by
  have hperm : (setupQuestion ks1 ks2 word s).options.Perm
      ((shuffleWith ks1 (wrongAnswersFor s word)).take 3 ++
        [answerTerm s.mode word]) := shuffleWith_perm _ _
  constructor
  · exact hperm.symm.subset (by simp)
  · rw [hperm.length_eq, List.length_append, List.length_take,
      (shuffleWith_perm ks1 _).length_eq]
    rfl

def cexWordA : Word :=
  { id := "1", english := "alpha", japanese := "A", wrongCount := 0, correctTotal := 0 }

def cexWordB1 : Word :=
  { id := "2", english := "beta1", japanese := "B", wrongCount := 0, correctTotal := 0 }

def cexWordB2 : Word :=
  { id := "3", english := "beta2", japanese := "B", wrongCount := 0, correctTotal := 0 }

def cexWordB3 : Word :=
  { id := "4", english := "beta3", japanese := "B", wrongCount := 0, correctTotal := 0 }

/-- A pool in which every word but cexWordA carries the same term "B". -/
def cexState : AppState :=
  { baseState with allWords := [cexWordA, cexWordB1, cexWordB2, cexWordB3] }

/-- C5 counterexample: in a pool where the three words other than the quizzed
one all carry the same term "B", the candidate list has 3 entries (so at
least 3 eligible distractors exist), yet the produced options are
"B", "B", "B", "A": the three distractors are not pairwise distinct, refuting
the distinctness part of the claim. -/
theorem setupQuestion_duplicate_distractors :
    3 ≤ (wrongAnswersFor cexState cexWordA).length ∧
    (setupQuestion [] [] cexWordA cexState).options = ["B", "B", "B", "A"] ∧
    ¬ (setupQuestion [] [] cexWordA cexState).options.Nodup := by
  refine ⟨by decide, ?_, by decide⟩
  decide

/-- C5 (amended): when the whole-pool candidate list (the same-direction
terms of words whose term differs textually from the correct answer) has at
least 3 entries, setupQuestion returns 4 options of which exactly one equals
the correct answer; the 3 distractors are drawn from that candidate list, so
each differs textually from the correct answer, but they are not required to
be pairwise distinct. -/
theorem setupQuestion_options_valid (s : AppState) (word : Word)
    (ks1 ks2 : List Nat) (h : 3 ≤ (wrongAnswersFor s word).length) :
    (setupQuestion ks1 ks2 word s).options.length = 4 ∧
    (setupQuestion ks1 ks2 word s).options.count (answerTerm s.mode word) = 1 ∧
    ∀ o ∈ (setupQuestion ks1 ks2 word s).options, o ≠ answerTerm s.mode word →
      o ∈ wrongAnswersFor s word := by
  have hperm : (setupQuestion ks1 ks2 word s).options.Perm
      ((shuffleWith ks1 (wrongAnswersFor s word)).take 3 ++
        [answerTerm s.mode word]) := shuffleWith_perm _ _
  have hsub : (shuffleWith ks1 (wrongAnswersFor s word)).take 3 ⊆
      wrongAnswersFor s word :=
    fun x hx => (shuffleWith_perm ks1 _).subset (List.take_subset _ _ hx)
  refine ⟨?_, ?_, ?_⟩
  · rw [hperm.length_eq, List.length_append, List.length_take,
      (shuffleWith_perm ks1 _).length_eq]
    simp [Nat.min_eq_left h]
  · rw [hperm.count_eq, List.count_append]
    have hzero : ((shuffleWith ks1 (wrongAnswersFor s word)).take 3).count
        (answerTerm s.mode word) = 0 :=
      List.count_eq_zero.mpr (fun hc => wrongAnswersFor_ne s word _ (hsub hc) rfl)
    simp [hzero]
  · intro o ho hne
    rcases List.mem_append.mp (hperm.subset ho) with h1 | h1
    · exact hsub h1
    · exact absurd (by simpa using h1) hne

/-- C5 (amended) witness: in the concrete four-word pool the candidate list
for wordA has exactly 3 entries and the produced options satisfy the amended
claim. -/
theorem setupQuestion_options_valid_witness :
    3 ≤ (wrongAnswersFor baseState wordA).length ∧
    (setupQuestion [] [] wordA baseState).options.length = 4 ∧
    (setupQuestion [] [] wordA baseState).options.count
      (answerTerm baseState.mode wordA) = 1 ∧
    ∀ o ∈ (setupQuestion [] [] wordA baseState).options,
      o ≠ answerTerm baseState.mode wordA → o ∈ wrongAnswersFor baseState wordA :=
  ⟨by decide, setupQuestion_options_valid baseState wordA [] [] (by decide)⟩

/-! Session invariants: no repeats within a session, non-negative counters. -/

/-- pickNextWord never returns a word whose id is in the exclusion list. -/
theorem pickNextWord_not_excluded (s : AppState) (excludeIds : List String)
    (type : SessionType) (k : Nat) (w : Word)
    (h : pickNextWord s excludeIds type k = some w) : w.id ∉ excludeIds := by
  rw [pickNextWord.eq_def] at h
  by_cases he : (availableWordsOf s excludeIds).isEmpty = true
  · rw [if_pos he] at h
    exact absurd h (by simp)
  · rw [if_neg he] at h
    have hmem : w ∈ availableWordsOf s excludeIds := by
      cases type with
      | training =>
        have h2 : (sortByWrongCountDesc (availableWordsOf s excludeIds)).head?
            = some w := h
        rw [sortByWrongCountDesc_head] at h2
        exact (firstMaxByWrongCount_mem_max _ _ h2).1
      | normal =>
        have h2 : (availableWordsOf s excludeIds).get?
            (k % (availableWordsOf s excludeIds).length) = some w := h
        exact List.get?_mem h2
    rw [availableWordsOf] at hmem
    have hp := (List.mem_filter.mp hmem).2
    simpa using hp

/-- handleAnswer leaves usedWordIds untouched. -/
theorem handleAnswer_usedWordIds (answer : String) (s : AppState) :
    (handleAnswer answer s).usedWordIds = s.usedWordIds := by
  rw [handleAnswer]
  split
  · rfl
  · split <;> rfl

/-- After startSession, usedWordIds is the empty or one-element history, so
it has no duplicates regardless of the previous state. -/
theorem startSession_usedWordIds_nodup (type : SessionType) (k : Nat)
    (ks1 ks2 : List Nat) (s : AppState) :
    ((startSession type k ks1 ks2 s).usedWordIds).Nodup := by
  simp only [startSession]
  split
  · simp [setupQuestion]
  · simp

/-- proceedNext preserves the no-duplicates invariant on usedWordIds: the
only id it appends comes from a pickNextWord call that excludes the current
usedWordIds. -/
theorem proceedNext_usedWordIds_nodup (k : Nat) (ks1 ks2 : List Nat)
    (s : AppState) (h : s.usedWordIds.Nodup) :
    ((proceedNext k ks1 ks2 s).usedWordIds).Nodup := by
  simp only [proceedNext]
  split
  · exact h
  · split
    · exact h
    · split
      · rename_i w heq
        simp only [setupQuestion, List.nodup_append]
        simp only [List.nodup_cons, List.not_mem_nil, not_false_iff, List.nodup_nil,
          and_true, true_and]
        refine ⟨h, ?_⟩
        intro a ha hb
        rcases List.mem_singleton.mp hb with rfl
        exact pickNextWord_not_excluded s s.usedWordIds s.sessionType k w heq ha
      · exact h

/-- Every event preserves the no-duplicates invariant on usedWordIds. -/
theorem stepEv_usedWordIds_nodup (e : Event) (s : AppState)
    (h : s.usedWordIds.Nodup) : ((stepEv e s).usedWordIds).Nodup := by
  cases e with
  | start type k ks1 ks2 => exact startSession_usedWordIds_nodup type k ks1 ks2 s
  | answer a => rw [stepEv, handleAnswer_usedWordIds]; exact h
  | next k ks1 ks2 => exact proceedNext_usedWordIds_nodup k ks1 ks2 s h

/-- Running any event sequence preserves the no-duplicates invariant. -/
theorem run_usedWordIds_nodup (evs : List Event) (s : AppState)
    (h : s.usedWordIds.Nodup) : ((run evs s).usedWordIds).Nodup := by
  induction evs generalizing s with
  | nil => exact h
  | cons e t ih => exact ih _ (stepEv_usedWordIds_nodup e s h)

/-- C3: in every state reached by running any events after a startSession,
usedWordIds contains no duplicate ids, and pickNextWord invoked with the
session's usedWordIds (as the engine always invokes it) never returns a word
whose id is already used — no word is asked twice in one session, for either
session type. -/
theorem session_no_repeats (ty : SessionType) (k : Nat) (ks1 ks2 : List Nat)
    (evs : List Event) (s0 : AppState) :
    ((run evs (startSession ty k ks1 ks2 s0)).usedWordIds).Nodup ∧
    ∀ (k2 : Nat) (w : Word),
      pickNextWord (run evs (startSession ty k ks1 ks2 s0))
        ((run evs (startSession ty k ks1 ks2 s0)).usedWordIds)
        ((run evs (startSession ty k ks1 ks2 s0)).sessionType) k2 = some w →
      w.id ∉ (run evs (startSession ty k ks1 ks2 s0)).usedWordIds := by
  refine ⟨run_usedWordIds_nodup evs _
    (startSession_usedWordIds_nodup ty k ks1 ks2 s0), ?_⟩
  intro k2 w hw
  exact pickNextWord_not_excluded _ _ _ _ _ hw

/-- C3 witness: after starting a concrete training session (which asks
wordA), the used-id list ["1"] has no duplicates, and a pick returning wordB
implies its id 2 is not among the used ids. -/
theorem session_no_repeats_witness :
    ((run [] (startSession .training 0 [] [] baseState)).usedWordIds).Nodup ∧
    (pickNextWord (run [] (startSession .training 0 [] [] baseState))
        ((run [] (startSession .training 0 [] [] baseState)).usedWordIds)
        ((run [] (startSession .training 0 [] [] baseState)).sessionType) 0
        = some wordB →
      wordB.id ∉ (run [] (startSession .training 0 [] [] baseState)).usedWordIds) :=
  ⟨(session_no_repeats .training 0 [] [] [] baseState).1,
   fun h => (session_no_repeats .training 0 [] [] [] baseState).2 0 wordB h⟩

/-- applyAnswerResult keeps every wrongCount non-negative: a correct answer
clamps at 0 through max, an incorrect one increments. -/
theorem applyAnswerResult_wrongCount_nonneg (pool : List Word) (wordId : String)
    (b : Bool) (h : ∀ w ∈ pool, 0 ≤ w.wrongCount) :
    ∀ w ∈ applyAnswerResult pool wordId b, 0 ≤ w.wrongCount := by
  intro w hw
  rw [applyAnswerResult] at hw
  obtain ⟨v, hv, rfl⟩ := List.mem_map.mp hw
  have hv0 := h v hv
  by_cases hid : v.id = wordId
  · cases b
    · simp only [hid, if_true, Bool.false_eq_true, if_false]
      omega
    · simp [hid]
  · simpa [hid] using hv0

/-- handleAnswer keeps every wrongCount non-negative. -/
theorem handleAnswer_wrongCount_nonneg (answer : String) (s : AppState)
    (h : ∀ w ∈ s.allWords, 0 ≤ w.wrongCount) :
    ∀ w ∈ (handleAnswer answer s).allWords, 0 ≤ w.wrongCount := by
  rw [handleAnswer]
  split
  · exact h
  · split
    · exact h
    · exact applyAnswerResult_wrongCount_nonneg _ _ _ h

/-- startSession never changes the pool. -/
theorem startSession_allWords (type : SessionType) (k : Nat) (ks1 ks2 : List Nat)
    (s : AppState) : (startSession type k ks1 ks2 s).allWords = s.allWords := by
  simp only [startSession]
  split <;> rfl

/-- proceedNext never changes the pool. -/
theorem proceedNext_allWords (k : Nat) (ks1 ks2 : List Nat) (s : AppState) :
    (proceedNext k ks1 ks2 s).allWords = s.allWords := by
  simp only [proceedNext]
  split
  · rfl
  · split
    · rfl
    · split <;> rfl

/-- Every event preserves non-negativity of all wrongCounts. -/
theorem stepEv_wrongCount_nonneg (e : Event) (s : AppState)
    (h : ∀ w ∈ s.allWords, 0 ≤ w.wrongCount) :
    ∀ w ∈ (stepEv e s).allWords, 0 ≤ w.wrongCount := by
  cases e with
  | start type k ks1 ks2 => rw [stepEv, startSession_allWords]; exact h
  | answer a => exact handleAnswer_wrongCount_nonneg a s h
  | next k ks1 ks2 => rw [stepEv, proceedNext_allWords]; exact h

/-- C4: from any pool whose wrongCounts are non-negative, after any finite
sequence of engine events (hence any mix of correct and incorrect scored
answers), every word's wrongCount is still a non-negative integer. -/
theorem run_wrongCount_nonneg (s : AppState)
    (h : ∀ w ∈ s.allWords, 0 ≤ w.wrongCount) (evs : List Event) :
    ∀ w ∈ (run evs s).allWords, 0 ≤ w.wrongCount := by
  induction evs generalizing s with
  | nil => exact h
  | cons e t ih => exact ih _ (stepEv_wrongCount_nonneg e s h)

/-- C4 witness: the concrete pool has non-negative wrongCounts, and they
remain non-negative after a concrete wrong answer on wordA. -/
theorem run_wrongCount_nonneg_witness :
    (∀ w ∈ askedState.allWords, 0 ≤ w.wrongCount) ∧
    ∀ w ∈ (run [Event.answer "nope"] askedState).allWords, 0 ≤ w.wrongCount :=
  ⟨by decide, run_wrongCount_nonneg askedState (by decide) [Event.answer "nope"]⟩

/-! The advance step and the finished-view accuracy. -/

/-- C6: called with an answered current question in a non-finished session,
proceedNext increments solvedCount by exactly 1; if the incremented count
reaches the limit, or otherwise the pickNext call yields none, the session
transitions to finished with the current question cleared; otherwise the
next question is built via setupQuestion (on the state with the bumped
solvedCount) and the session stays in progress with the picked word
current. -/
theorem proceedNext_advances (s : AppState) (k : Nat) (ks1 ks2 : List Nat)
    (hfb : s.feedback ≠ none) (hfin : s.isFinished = false)
    (hcw : s.currentWord ≠ none) :
    (proceedNext k ks1 ks2 s).solvedCount = s.solvedCount + 1 ∧
    (s.sessionLimit ≤ s.solvedCount + 1 →
      (proceedNext k ks1 ks2 s).isFinished = true ∧
      (proceedNext k ks1 ks2 s).currentWord = none ∧
      (proceedNext k ks1 ks2 s).feedback = none) ∧
    (¬ s.sessionLimit ≤ s.solvedCount + 1 →
      (pickNextWord s s.usedWordIds s.sessionType k = none →
        (proceedNext k ks1 ks2 s).isFinished = true ∧
        (proceedNext k ks1 ks2 s).currentWord = none ∧
        (proceedNext k ks1 ks2 s).feedback = none) ∧
      (∀ w, pickNextWord s s.usedWordIds s.sessionType k = some w →
        proceedNext k ks1 ks2 s =
          setupQuestion ks1 ks2 w { s with solvedCount := s.solvedCount + 1 } ∧
        (proceedNext k ks1 ks2 s).isFinished = false ∧
        (proceedNext k ks1 ks2 s).currentWord = some w)) := by
  obtain ⟨f, hf⟩ := Option.ne_none_iff_exists'.mp hfb
  obtain ⟨c, hc⟩ := Option.ne_none_iff_exists'.mp hcw
  have hguard : (s.feedback.isNone || s.isFinished || s.currentWord.isNone) = false := by
    simp [hf, hc, hfin]
  by_cases hlim : s.sessionLimit ≤ s.solvedCount + 1
  · have hred : proceedNext k ks1 ks2 s =
        { s with
          solvedCount := s.solvedCount + 1
          isFinished := true
          currentWord := none
          feedback := none } := by
      rw [proceedNext.eq_def, hguard]
      simp [hlim]
    rw [hred]
    exact ⟨rfl, fun _ => ⟨rfl, rfl, rfl⟩, fun hn => absurd hlim hn⟩
  · refine ⟨?_, fun hl => absurd hl hlim, fun _ => ⟨?_, ?_⟩⟩
    · cases hpick : pickNextWord s s.usedWordIds s.sessionType k with
      | none =>
        have hred : proceedNext k ks1 ks2 s =
            { s with
              solvedCount := s.solvedCount + 1
              isFinished := true
              currentWord := none
              feedback := none } := by
          rw [proceedNext.eq_def, hguard]
          simp [hlim, hpick]
        rw [hred]
      | some w =>
        have hred : proceedNext k ks1 ks2 s =
            setupQuestion ks1 ks2 w { s with solvedCount := s.solvedCount + 1 } := by
          rw [proceedNext.eq_def, hguard]
          simp [hlim, hpick]
        rw [hred]
        rfl
    · intro hpick
      have hred : proceedNext k ks1 ks2 s =
          { s with
            solvedCount := s.solvedCount + 1
            isFinished := true
            currentWord := none
            feedback := none } := by
        rw [proceedNext.eq_def, hguard]
        simp [hlim, hpick]
      rw [hred]
      exact ⟨rfl, rfl, rfl⟩
    · intro w hpick
      have hred : proceedNext k ks1 ks2 s =
          setupQuestion ks1 ks2 w { s with solvedCount := s.solvedCount + 1 } := by
        rw [proceedNext.eq_def, hguard]
        simp [hlim, hpick]
      exact ⟨hred, by rw [hred]; exact hfin, by rw [hred]; rfl⟩

/-- C6 witness: at a concrete answered state with limit 1, advancing bumps
solvedCount to 1 and, having reached the limit, finishes the session and
clears the question. -/
theorem proceedNext_advances_witness :
    answeredState.feedback ≠ none ∧ answeredState.isFinished = false ∧
    answeredState.currentWord ≠ none ∧
    answeredState.sessionLimit ≤ answeredState.solvedCount + 1 ∧
    (proceedNext 0 [] [] answeredState).solvedCount
      = answeredState.solvedCount + 1 ∧
    (proceedNext 0 [] [] answeredState).isFinished = true ∧
    (proceedNext 0 [] [] answeredState).currentWord = none := by
  have h := proceedNext_advances answeredState 0 [] [] (by decide) rfl (by decide)
  have hl : answeredState.sessionLimit ≤ answeredState.solvedCount + 1 := by decide
  exact ⟨by decide, rfl, by decide, hl, h.1, (h.2.1 hl).1, (h.2.1 hl).2.1⟩

/-- C8: the accuracy shown on the finished view equals correctSession
divided by max solvedCount 1 as a (rounded) percentage — the `solvedCount
or 1` guard of the code agrees with max on the reachable non-negative
counts — and at solvedCount 10 with correctSession 7 it reports 70. -/
theorem resultAccuracy_spec (st : AppState) (hfin : st.isFinished = true)
    (hs : 0 ≤ st.solvedCount) :
    resultAccuracy st =
      ⌊(st.correctSession : ℚ) / (max (st.solvedCount : ℚ) 1) * 100 + 1 / 2⌋ ∧
    (st.solvedCount = 10 → st.correctSession = 7 → resultAccuracy st = 70) := by
  constructor
  · rw [resultAccuracy]
    by_cases h : st.solvedCount = 0
    · rw [if_pos h, h]
      norm_num
    · rw [if_neg h]
      have h1 : (1 : ℚ) ≤ (st.solvedCount : ℚ) := by
        have h2 : (1 : Int) ≤ st.solvedCount := by omega
        exact_mod_cast h2
      rw [max_eq_left h1]
  · intro h10 h7
    rw [resultAccuracy, h10, h7]
    norm_num

/-- C8 witness: the concrete finished state with 7 of 10 correct reports
70 percent. -/
theorem resultAccuracy_spec_witness :
    finishedState.isFinished = true ∧ (0 : Int) ≤ finishedState.solvedCount ∧
    resultAccuracy finishedState = 70 := by
  refine ⟨rfl, by decide, ?_⟩
  exact (resultAccuracy_spec finishedState rfl (by decide)).2 rfl rfl

end VocabTrainer
